import Mathlib

/-!
A shallow embedding of the preset-application core of the `oanhnn/cli`
repository, together with theorems settling the frozen claims about it.

The embedded pieces are:

* the Line-Addition Engine `EditHandler.performLineAddition`
  (`src/src/Handlers/EditHandler.ts`, lines 74-139), with the
  `contextualizeValue` / `wrap` helpers it consumes;
* the Sandboxed Importer `ModuleImporter.findConfiguration` and
  `ModuleImporter.evaluateConfiguration` (`src/unnamed/part_001`);
* `Logger.exit` (`src/src/Handlers/EditHandler.ts`, lines 306-309).

JavaScript strings are modelled as Lean `String`; a resolved regular
expression is modelled as its matching function `String → Bool`
(`line.match(search)` is truthy iff the matcher returns `true`); the
filesystem and the external esbuild/vm services are explicit parameters.
-/

namespace PresetCli

/-- Modelled from the spec (§3, §4.1): `ContextualValue<T>` is "either a
literal `T` or a single-argument function `(Preset) → T`".  The concrete
`ContextualValue` type lives in `@/exports`, outside `src/`. -/
inductive ContextualValue (π α : Type) where
  | literal (value : α)
  | callback (f : π → α)

/-- Modelled from the spec (§4.1): "If `value` is a function, invoke it with
`preset` and return the result; otherwise return `value` unchanged."  The
concrete `contextualizeValue` helper lives in `@/exports`, outside `src/`. -/
def contextualizeValue {π α : Type} (preset : π) : ContextualValue π α → α
  | .literal value => value
  | .callback f => f preset

/-- A TypeScript `string | string[]` value, the declared shape of
`LineAddition.content` (spec §3). -/
inductive OneOrMany (α : Type) where
  | one (a : α)
  | many (items : List α)

/-- Modelled from the spec (§4.3 step 1): the `wrap` helper from `@/exports`
(outside `src/`) normalizes a one-or-many value to a list. -/
def wrap {α : Type} : OneOrMany α → List α
  | .one a => [a]
  | .many items => items

/-- The `direction` field of a `LineAddition`: `'above' | 'below'` (spec §3). -/
inductive Direction where
  | above
  | below
deriving DecidableEq

/-- The `indent` field of a `LineAddition`:
`undefined | 'double' | number | string` (spec §3).  The string `"double"`
is represented as `.str "double"`; JavaScript numbers appearing here are
repeat counts, modelled as `Nat`. -/
inductive AdditionIndent where
  | unset
  | num (n : Nat)
  | str (s : String)
deriving DecidableEq

/-- JavaScript falsiness of an `indent` value: `undefined`, the number `0`
and the empty string are falsy; every other value of the type is truthy. -/
def AdditionIndent.isFalsy : AdditionIndent → Bool
  | .unset => true
  | .num n => n == 0
  | .str s => s == ""

/-- The `LineAddition` record (spec §3), with every field contextual.  The
resolved `search` is `Option (String → Bool)`: `none` models a falsy search
value, `some pat` models a regular expression whose match test on a line is
`pat`. -/
structure LineAddition (π : Type) where
  search : ContextualValue π (Option (String → Bool))
  direction : ContextualValue π Direction
  content : ContextualValue π (OneOrMany String)
  indent : ContextualValue π AdditionIndent
  amountOfLinesToSkip : ContextualValue π Nat

/-- A `LineAddition` over the trivial preset whose fields are all literals;
used to instantiate theorems at concrete inputs. -/
def mkAddition (search : Option (String → Bool)) (direction : Direction)
    (content : OneOrMany String) (indent : AdditionIndent)
    (amountOfLinesToSkip : Nat) : LineAddition Unit :=
  { search := .literal search
    direction := .literal direction
    content := .literal content
    indent := .literal indent
    amountOfLinesToSkip := .literal amountOfLinesToSkip }

/-- Whether a character is an indentation character (space or tab). -/
def isIndentChar (c : Char) : Bool := c == ' ' || c == '\t'

/-- Modelled from the spec (§4.3 step 6): the external `detect-indent`
library applied to a single line (`detectIndent(previousLine).indent` in the
source) yields "the whitespace prefix of the anchor line". -/
def detectIndent (line : String) : String :=
  String.mk (line.data.takeWhile isIndentChar)

/-- The matcher for a single-character regular expression such as `/b/`:
`line.match(/b/)` is truthy iff the line contains the character. -/
def matchesChar (c : Char) (line : String) : Bool := line.data.contains c

/-- `content.split('\n')` at the character-list level: splits a character
list at every newline character.  JavaScript semantics: the empty string
splits to `[""]`, a trailing separator yields a trailing empty piece. -/
def splitNl : List Char → List (List Char)
  | [] => [[]]
  | c :: cs =>
    if c = '\n' then [] :: splitNl cs
    else
      match splitNl cs with
      | [] => [[c]]
      | l :: ls => (c :: l) :: ls

/-- `content.split('\n')` (EditHandler.ts line 80). -/
def splitLines (s : String) : List String :=
  (splitNl s.data).map String.mk

/-- `lines.join('\n')` (EditHandler.ts line 138): the pieces separated by
single newline characters. -/
def joinLines : List String → String
  | [] => ""
  | [l] => l
  | l :: l2 :: ls => l ++ "\n" ++ joinLines (l2 :: ls)

/-- One line inserted by the engine (EditHandler.ts lines 112-135): the
resolved indent mode picks the prefix attached to `lineToAdd`, where
`indent` is the detected leading whitespace of the anchor line.  Branches in
source order: falsy indent reuses `indent`; `'double'` is `indent.repeat(2)`;
a number `n` is `n` spaces; any other string is used verbatim.  The final
`.unset` case is unreachable (`.unset` is falsy). -/
def insertedLine (additionIndent : AdditionIndent) (indent : String)
    (lineToAdd : String) : String :=
  if additionIndent.isFalsy then indent ++ lineToAdd
  else if additionIndent = .str "double" then (indent ++ indent) ++ lineToAdd
  else
    match additionIndent with
    | .num n => String.mk (List.replicate n ' ') ++ lineToAdd
    | .str s => s ++ lineToAdd
    | .unset => indent ++ lineToAdd

/-- The mutable state of the scanning loop of `performLineAddition`
(EditHandler.ts lines 81-84): the output buffer, the remaining skip budget,
the most recently pushed line, and the `hasMatch` flag. -/
structure AdditionState where
  finalLines : List String
  amountOfLinesBeforeAdding : Nat
  previousLine : String
  hasMatch : Bool

/-- One iteration of the `for (const line of initialLines)` loop
(EditHandler.ts lines 93-136): push the line, then either continue (line
does not match and the scan is not armed), consume the skip budget, or emit
the insertion block and reset `hasMatch`. -/
def processLine (search : String → Bool) (orderedContentToAdd : List String)
    (additionIndent : AdditionIndent) (st : AdditionState) (line : String) :
    AdditionState :=
  let st := { st with finalLines := st.finalLines ++ [line], previousLine := line }
  if !search line && !st.hasMatch then
    st
  else
    let st := { st with hasMatch := true }
    if st.amountOfLinesBeforeAdding > 0 then
      { st with amountOfLinesBeforeAdding := st.amountOfLinesBeforeAdding - 1 }
    else
      { st with
        hasMatch := false
        finalLines := st.finalLines ++
          orderedContentToAdd.map
            (insertedLine additionIndent (detectIndent st.previousLine)) }

/-- `EditHandler.performLineAddition` (EditHandler.ts lines 74-139).  The
handler's `this.preset` is passed explicitly; the returned string is the
edited content. -/
def performLineAddition {π : Type} (preset : π) (content : String)
    (addition : LineAddition π) : String :=
  let search := contextualizeValue preset addition.search
  let direction := contextualizeValue preset addition.direction
  let contentToAdd := wrap (contextualizeValue preset addition.content)
  let orderedContentToAdd :=
    if direction = .above then contentToAdd.reverse else contentToAdd
  let additionIndent := contextualizeValue preset addition.indent
  let initialLines :=
    if direction = .above then (splitLines content).reverse
    else splitLines content
  let amountOfLinesBeforeAdding :=
    contextualizeValue preset addition.amountOfLinesToSkip
  match search with
  | none => content
  | some search =>
    if contentToAdd.length = 0 then content
    else
      let final := initialLines.foldl
        (processLine search orderedContentToAdd additionIndent)
        { finalLines := []
          amountOfLinesBeforeAdding := amountOfLinesBeforeAdding
          previousLine := ""
          hasMatch := false }
      if direction = .above then joinLines final.finalLines.reverse
      else joinLines final.finalLines

/-- Whether a string contains a carriage-return character. -/
def hasCR (s : String) : Bool := s.data.contains '\r'

/-- Whether a character list contains an adjacent `'\r'`, `'\n'` pair. -/
def crlfAux : List Char → Bool
  | [] => false
  | _ :: [] => false
  | c :: d :: rest => (c == '\r' && d == '\n') || crlfAux (d :: rest)

/-- Whether a string contains a CRLF (`"\r\n"`) sequence. -/
def hasCRLF (s : String) : Bool := crlfAux s.data

/-! ## The Sandboxed Importer (`src/unnamed/part_001`) -/

/-- `path.join(a, b)`: path concatenation with a separator.  Normalization
performed by Node's `path.join` is irrelevant here because the claims treat
paths opaquely. -/
def pathJoin (a b : String) : String := a ++ "/" ++ b

/-- The filesystem as seen by `ModuleImporter.findConfiguration`:
`pathExists` is `fs.existsSync`; `isFile` is `fs.statSync(p).isFile()`,
meaningful only on existing paths; `presetField` is the truthy `preset`
field of the parsed `package.json` at a path (`none` when the field is
absent or falsy). -/
structure FileSystem where
  pathExists : String → Bool
  isFile : String → Bool
  presetField : String → Option String

/-- The failure outcomes of `ModuleImporter.findConfiguration`
(`src/unnamed/part_001`, lines 25-71):

* `statError p` — `fs.statSync(p)` threw a raw Node `ENOENT` error because
  `p` does not exist (line 37); this error is not an `ExecutionError` and
  propagates uncaught;
* `specifiedFileMissing p` — the `ExecutionError` of lines 41-44, message
  "The specified configuration file does not exist (p)", no stack,
  `stopsExecution`; reached only when `p` exists but is not a regular file;
* `configurationNotFound d` — the `ExecutionError` of lines 67-70, message
  "The configuration file could not be found (tried in d)", no stack,
  `stopsExecution`. -/
inductive FindError where
  | statError (path : String)
  | specifiedFileMissing (path : String)
  | configurationNotFound (directory : String)
deriving DecidableEq

/-- `fs.statSync(p).isFile()` as a fallible call: throws `ENOENT` when `p`
does not exist, otherwise reports whether `p` is a regular file. -/
def statSyncIsFile (fs : FileSystem) (p : String) : Except FindError Bool :=
  if fs.pathExists p then .ok (fs.isFile p) else .error (.statError p)

/-- The conventional probe locations built by `findConfiguration` lines
50-58: `preset` then `src/preset`, each with extensions `ts`, `js`, `mjs`,
`cjs`, in that order. -/
def guessedFiles (directory : String) : List String :=
  ["preset", "src/preset"].flatMap fun file =>
    ["ts", "js", "mjs", "cjs"].map fun extension =>
      pathJoin directory (file ++ "." ++ extension)

/-- `ModuleImporter.findConfiguration` (`src/unnamed/part_001`, lines
25-71): a manifest-declared preset path is probed with `fs.statSync` (which
throws a raw error when the path does not exist); otherwise the conventional
files are probed in order and the first existing one wins. -/
def findConfiguration (fs : FileSystem) (directory : String) :
    Except FindError String :=
  let packagePath := pathJoin directory "package.json"
  match (if fs.pathExists packagePath then fs.presetField packagePath else none) with
  | some preset =>
    let presetPath := pathJoin directory preset
    match statSyncIsFile fs presetPath with
    | .error e => .error e
    | .ok true => .ok presetPath
    | .ok false => .error (.specifiedFileMissing presetPath)
  | none =>
    match (guessedFiles directory).find? fs.pathExists with
    | some file => .ok file
    | none => .error (.configurationNotFound directory)

/-- The capabilities installed into the isolated vm context by
`ModuleImporter.evaluateConfiguration` (`src/unnamed/part_001`, lines
78-84). -/
inductive SandboxCapability where
  | exportsContainer
  | requireCapability
  | moduleObject
  | presetBuilder
  | colorHelper
deriving DecidableEq

/-- The argument of `vm.createContext` (lines 78-84), as the ordered list of
installed global names with their capabilities: `exports: {}`, `require`,
`module`, `Preset: new Preset()`, `color`. -/
def sandboxContextEntries : List (String × SandboxCapability) :=
  [("exports", .exportsContainer), ("require", .requireCapability),
   ("module", .moduleObject), ("Preset", .presetBuilder),
   ("color", .colorHelper)]

/-- The isolated evaluation context: the installed global names, and the
value currently bound to the name `Preset` (the builder instance the script
populates).  `β` is the type of builder values. -/
structure VmContext (β : Type) where
  names : List String
  presetValue : β

/-- `vm.createContext({exports: {}, require, module, Preset: new Preset(),
color})` (lines 78-84): the fresh context, seeded with the builder instance
`newPreset`. -/
def createContext {β : Type} (newPreset : β) : VmContext β :=
  { names := sandboxContextEntries.map Prod.fst, presetValue := newPreset }

/-- Modelled from the spec (§7): the `ExecutionError` class from
`@/exports` (outside `src/`) carries "a user-facing message, an optional
full diagnostic trace, and a halt flag".  `ε` is the type of underlying
JavaScript errors. -/
structure ExecutionError (ε : Type) where
  message : String
  completeStack : Option ε
  stopsExecution : Bool

/-- The error built by the `catch` block of `evaluateConfiguration` (lines
93-98): message "The preset could not be evaluated.", the complete stack of
the original error, and the halt flag. -/
def evaluationError {ε : Type} (error : ε) : ExecutionError ε :=
  { message := "The preset could not be evaluated."
    completeStack := some error
    stopsExecution := true }

/-- `ModuleImporter.evaluateConfiguration` (`src/unnamed/part_001`, lines
76-99).  The external services are parameters: `transform` is esbuild's
`transformSync` (TypeScript to CommonJS), `runInContext` is
`vm.runInContext`, returning the context as mutated by the script.  Any
failure of either is caught and rethrown as `evaluationError`.  On success
the preset is the value read back from the context's `Preset` binding. -/
def evaluateConfiguration {ε β : Type} (transform : String → Except ε String)
    (runInContext : String → VmContext β → Except ε (VmContext β))
    (newPreset : β) (script : String) : Except (ExecutionError ε) β :=
  let context := createContext newPreset
  match transform script with
  | .error error => .error (evaluationError error)
  | .ok code =>
    match runInContext code context with
    | .error error => .error (evaluationError error)
    | .ok context => .ok context.presetValue

/-! ## `Logger.exit` (`src/src/Handlers/EditHandler.ts`, lines 306-309) -/

/-- The observable effects of a `Logger` method: a log call at an action
level with a message, or a `process.exit` call with a status code. -/
inductive LoggerEffect where
  | log (level : String) (message : String)
  | processExit (code : Nat)
deriving DecidableEq

/-- The `process.exit` status codes appearing in an effect trace. -/
def exitCodes (trace : List LoggerEffect) : List Nat :=
  trace.filterMap fun e =>
    match e with
    | .processExit code => some code
    | _ => none

/-- `Logger.exit` (lines 306-309) as its effect trace:
`this._logger.log('error', message, ...args)` followed by
`process.exit(0)`. -/
def Logger.exit (message : String) : List LoggerEffect :=
  [.log "error" message, .processExit 0]

/-! ## Auxiliary definitions for the theorems -/

/-- The character-level counterpart of `joinLines`: concatenation with a
newline character between consecutive pieces. -/
def joinChars : List (List Char) → List Char
  | [] => []
  | [l] => l
  | l :: l2 :: ls => l ++ '\n' :: joinChars (l2 :: ls)

/-- A filesystem exercising `findConfiguration`: `demo/package.json`
declares `"preset": "my-preset.js"`, the declared `demo/my-preset.js` does
not exist, and the conventional `demo/preset.ts` exists. -/
def bugFs : FileSystem :=
  { pathExists := fun p => p == "demo/package.json" || p == "demo/preset.ts"
    isFile := fun p => p == "demo/package.json" || p == "demo/preset.ts"
    presetField := fun p =>
      if p == "demo/package.json" then some "my-preset.js" else none }

/-- Like `bugFs`, but the declared `demo/my-preset.js` exists as a regular
file alongside the conventional `demo/preset.ts`. -/
def okFs : FileSystem :=
  { pathExists := fun p =>
      p == "demo/package.json" || p == "demo/preset.ts" || p == "demo/my-preset.js"
    isFile := fun p =>
      p == "demo/package.json" || p == "demo/preset.ts" || p == "demo/my-preset.js"
    presetField := fun p =>
      if p == "demo/package.json" then some "my-preset.js" else none }

/-- Whether a `findConfiguration` outcome is the crafted "specified
configuration file does not exist" `ExecutionError` (the condition the spec
calls ExplicitFileMissing). -/
def isSpecifiedFileMissing : Except FindError String → Bool
  | .error (.specifiedFileMissing _) => true
  | _ => false

/-! ## Helper lemmas -/

theorem splitNl_ne_nil (cs : List Char) : splitNl cs ≠ [] := by
  induction cs with
  | nil => simp [splitNl]
  | cons c cs ih =>
    simp only [splitNl]
    by_cases h : c = '\n'
    · simp [h]
    · rw [if_neg h]
      cases hs : splitNl cs with
      | nil => simp
      | cons l ls => simp

theorem joinChars_splitNl (cs : List Char) : joinChars (splitNl cs) = cs := by
  induction cs with
  | nil => rfl
  | cons c cs ih =>
    simp only [splitNl]
    by_cases h : c = '\n'
    · rw [if_pos h]
      cases hs : splitNl cs with
      | nil => exact absurd hs (splitNl_ne_nil cs)
      | cons l ls =>
        rw [hs] at ih
        rw [show joinChars ([] :: l :: ls) = [] ++ '\n' :: joinChars (l :: ls) from rfl]
        simp [ih, h]
    · rw [if_neg h]
      cases hs : splitNl cs with
      | nil => exact absurd hs (splitNl_ne_nil cs)
      | cons l ls =>
        rw [hs] at ih
        cases ls with
        | nil => simpa [joinChars] using ih
        | cons l2 ls2 =>
          rw [show joinChars ((c :: l) :: l2 :: ls2)
                = (c :: l) ++ '\n' :: joinChars (l2 :: ls2) from rfl]
          rw [show joinChars (l :: l2 :: ls2)
                = l ++ '\n' :: joinChars (l2 :: ls2) from rfl] at ih
          simpa using ih

theorem joinLines_data : ∀ ls : List String,
    (joinLines ls).data = joinChars (ls.map String.data)
  | [] => rfl
  | [l] => rfl
  | l :: l2 :: ls => by
    simp only [List.map_cons]
    rw [show joinLines (l :: l2 :: ls) = l ++ "\n" ++ joinLines (l2 :: ls) from rfl]
    rw [show joinChars (l.data :: l2.data :: (ls.map String.data))
          = l.data ++ '\n' :: joinChars (l2.data :: (ls.map String.data)) from rfl]
    rw [String.data_append, String.data_append]
    simp [joinLines_data (l2 :: ls)]

theorem map_data_splitLines (s : String) :
    (splitLines s).map String.data = splitNl s.data := by
  rw [splitLines, List.map_map]
  have h : (String.data ∘ String.mk) = id := rfl
  rw [h, List.map_id]

theorem joinLines_splitLines (s : String) : joinLines (splitLines s) = s := by
  apply String.ext
  rw [joinLines_data, map_data_splitLines, joinChars_splitNl]

theorem splitNl_no_newline (cs : List Char) (h : '\n' ∉ cs) : splitNl cs = [cs] := by
  induction cs with
  | nil => rfl
  | cons c cs ih =>
    simp only [splitNl]
    have hc : ¬ c = '\n' := fun hc => h (hc ▸ List.mem_cons_self c cs)
    rw [if_neg hc, ih (fun hm => h (List.mem_cons_of_mem c hm))]

theorem mem_of_mem_splitNl : ∀ (cs l : List Char), l ∈ splitNl cs → ∀ c ∈ l, c ∈ cs := by
  intro cs
  induction cs with
  | nil =>
    intro l hl c hc
    simp [splitNl] at hl
    subst hl
    simp at hc
  | cons x cs ih =>
    intro l hl c hc
    simp only [splitNl] at hl
    by_cases hx : x = '\n'
    · rw [if_pos hx] at hl
      rcases List.mem_cons.mp hl with h | h
      · subst h; simp at hc
      · exact List.mem_cons_of_mem x (ih l h c hc)
    · rw [if_neg hx] at hl
      cases hs : splitNl cs with
      | nil => exact absurd hs (splitNl_ne_nil cs)
      | cons l0 ls =>
        rw [hs] at hl
        rcases List.mem_cons.mp hl with h | h
        · subst h
          rcases List.mem_cons.mp hc with h | h
          · rw [h]; exact List.mem_cons_self x cs
          · exact List.mem_cons_of_mem x
              (ih l0 (hs ▸ List.mem_cons_self l0 ls) c h)
        · exact List.mem_cons_of_mem x
            (ih l (hs ▸ List.mem_cons_of_mem l0 h) c hc)

theorem eq_nl_or_mem_of_mem_joinChars : ∀ (lls : List (List Char)) (c : Char),
    c ∈ joinChars lls → c = '\n' ∨ ∃ l ∈ lls, c ∈ l := by
  intro lls
  induction lls with
  | nil => intro c hc; simp [joinChars] at hc
  | cons l ls ih =>
    intro c hc
    cases ls with
    | nil =>
      right
      exact ⟨l, List.mem_cons_self l [], hc⟩
    | cons l2 ls2 =>
      rw [show joinChars (l :: l2 :: ls2) = l ++ '\n' :: joinChars (l2 :: ls2) from rfl] at hc
      rcases List.mem_append.mp hc with h | h
      · right; exact ⟨l, List.mem_cons_self l (l2 :: ls2), h⟩
      · rcases List.mem_cons.mp h with h | h
        · left; exact h
        · rcases ih c h with h | ⟨l0, hl0, hc0⟩
          · left; exact h
          · right; exact ⟨l0, List.mem_cons_of_mem l hl0, hc0⟩

theorem processLine_no_match (search : String → Bool) (cs : List String)
    (ai : AdditionIndent) (st : AdditionState) (line : String)
    (h : search line = false) (hm : st.hasMatch = false) :
    processLine search cs ai st line =
      { st with finalLines := st.finalLines ++ [line], previousLine := line } := by
  simp [processLine, h, hm]

theorem processLine_skip (search : String → Bool) (cs : List String)
    (ai : AdditionIndent) (st : AdditionState) (line : String)
    (h : search line = true ∨ st.hasMatch = true)
    (hpos : 0 < st.amountOfLinesBeforeAdding) :
    processLine search cs ai st line =
      { finalLines := st.finalLines ++ [line]
        amountOfLinesBeforeAdding := st.amountOfLinesBeforeAdding - 1
        previousLine := line
        hasMatch := true } := by
  rcases h with h | h <;> simp [processLine, h, hpos]

theorem processLine_insert (search : String → Bool) (cs : List String)
    (ai : AdditionIndent) (st : AdditionState) (line : String)
    (h : search line = true ∨ st.hasMatch = true)
    (h0 : st.amountOfLinesBeforeAdding = 0) :
    processLine search cs ai st line =
      { finalLines := (st.finalLines ++ [line]) ++
          cs.map (insertedLine ai (detectIndent line))
        amountOfLinesBeforeAdding := 0
        previousLine := line
        hasMatch := false } := by
  rcases h with h | h <;> simp [processLine, h, h0]

theorem processLine_finalLines_cases (search : String → Bool) (cs : List String)
    (ai : AdditionIndent) (st : AdditionState) (line : String) :
    (processLine search cs ai st line).finalLines = st.finalLines ++ [line] ∨
    (processLine search cs ai st line).finalLines =
      (st.finalLines ++ [line]) ++ cs.map (insertedLine ai (detectIndent line)) := by
  by_cases h : search line = true
  · by_cases h0 : st.amountOfLinesBeforeAdding = 0
    · right; rw [processLine_insert search cs ai st line (Or.inl h) h0]
    · left
      rw [processLine_skip search cs ai st line (Or.inl h) (Nat.pos_of_ne_zero h0)]
  · have hf : search line = false := by simpa using h
    by_cases hm : st.hasMatch = true
    · by_cases h0 : st.amountOfLinesBeforeAdding = 0
      · right; rw [processLine_insert search cs ai st line (Or.inr hm) h0]
      · left
        rw [processLine_skip search cs ai st line (Or.inr hm) (Nat.pos_of_ne_zero h0)]
    · have hm0 : st.hasMatch = false := by simpa using hm
      left; rw [processLine_no_match search cs ai st line hf hm0]

theorem foldl_finalLines_no_match (search : String → Bool) (cs : List String)
    (ai : AdditionIndent) :
    ∀ (lines : List String) (st : AdditionState), st.hasMatch = false →
      (∀ l ∈ lines, search l = false) →
      (lines.foldl (processLine search cs ai) st).finalLines = st.finalLines ++ lines := by
  intro lines
  induction lines with
  | nil => intro st h1 h2; simp
  | cons l ls ih =>
    intro st h1 h2
    have hl : search l = false := h2 l (List.mem_cons_self l ls)
    rw [List.foldl_cons, processLine_no_match search cs ai st l hl h1,
        ih { st with finalLines := st.finalLines ++ [l], previousLine := l }
          h1 (fun x hx => h2 x (List.mem_cons_of_mem l hx))]
    simp

theorem foldl_finalLines_skip_zero (search : String → Bool) (cs : List String)
    (ai : AdditionIndent) :
    ∀ (lines : List String) (st : AdditionState),
      st.hasMatch = false → st.amountOfLinesBeforeAdding = 0 →
      (lines.foldl (processLine search cs ai) st).finalLines =
        st.finalLines ++ lines.flatMap (fun l =>
          if search l then l :: cs.map (insertedLine ai (detectIndent l)) else [l]) := by
  intro lines
  induction lines with
  | nil => intro st h1 h2; simp
  | cons l ls ih =>
    intro st h1 h2
    rw [List.foldl_cons]
    by_cases hl : search l = true
    · rw [processLine_insert search cs ai st l (Or.inl hl) h2,
          ih { finalLines := (st.finalLines ++ [l]) ++
                 cs.map (insertedLine ai (detectIndent l))
               amountOfLinesBeforeAdding := 0
               previousLine := l
               hasMatch := false } rfl rfl]
      simp [hl]
    · have hf : search l = false := by simpa using hl
      rw [processLine_no_match search cs ai st l hf h1,
          ih { st with finalLines := st.finalLines ++ [l], previousLine := l } h1 h2]
      simp [hf]

theorem foldl_finalLines_mem (search : String → Bool) (cs : List String)
    (ai : AdditionIndent) (P : String → Prop)
    (hins : ∀ line x, x ∈ cs → P (insertedLine ai (detectIndent line) x)) :
    ∀ (lines : List String) (st : AdditionState),
      (∀ l ∈ st.finalLines, P l) → (∀ l ∈ lines, P l) →
      ∀ l ∈ (lines.foldl (processLine search cs ai) st).finalLines, P l := by
  intro lines
  induction lines with
  | nil => intro st h1 h2; simpa using h1
  | cons l ls ih =>
    intro st h1 h2
    rw [List.foldl_cons]
    apply ih
    · intro x hx
      rcases processLine_finalLines_cases search cs ai st l with hc | hc <;> rw [hc] at hx
      · rcases List.mem_append.mp hx with h | h
        · exact h1 x h
        · rw [List.mem_singleton.mp h]
          exact h2 l (List.mem_cons_self l ls)
      · rcases List.mem_append.mp hx with h | h
        · rcases List.mem_append.mp h with h | h
          · exact h1 x h
          · rw [List.mem_singleton.mp h]
            exact h2 l (List.mem_cons_self l ls)
        · rcases List.mem_map.mp h with ⟨y, hy, hxy⟩
          rw [← hxy]
          exact hins l y hy
    · intro x hx
      exact h2 x (List.mem_cons_of_mem l hx)

/-- With resolved search `pat`, direction `below`, resolved content list
`cs ≠ []` and skip count `0`, the engine inserts the block after every
matching line: a flat-map characterization of the scan. -/
theorem perform_skip_zero_below_eq {π : Type} (preset : π)
    (addition : LineAddition π) (pat : String → Bool) (cs : List String)
    (ai : AdditionIndent) (content : String)
    (hs : contextualizeValue preset addition.search = some pat)
    (hd : contextualizeValue preset addition.direction = .below)
    (hc : wrap (contextualizeValue preset addition.content) = cs)
    (hi : contextualizeValue preset addition.indent = ai)
    (hk : contextualizeValue preset addition.amountOfLinesToSkip = 0)
    (hne : cs ≠ []) :
    performLineAddition preset content addition =
      joinLines ((splitLines content).flatMap fun l =>
        if pat l then l :: cs.map (insertedLine ai (detectIndent l)) else [l]) := by
  simp only [performLineAddition]
  rw [hs, hd, hc, hi, hk]
  have hlen : ¬ cs.length = 0 := by
    simpa using hne
  simp only [reduceCtorEq, if_neg, if_false, hlen, ite_false]
  rw [foldl_finalLines_skip_zero pat cs ai (splitLines content)
    { finalLines := []
      amountOfLinesBeforeAdding := 0
      previousLine := ""
      hasMatch := false } rfl rfl]
  simp

/-- The `direction = above` counterpart of `perform_skip_zero_below_eq`:
the scan runs on the reversed line list with the reversed content block,
and the output buffer is reversed back at the end. -/
theorem perform_skip_zero_above_eq {π : Type} (preset : π)
    (addition : LineAddition π) (pat : String → Bool) (cs : List String)
    (ai : AdditionIndent) (content : String)
    (hs : contextualizeValue preset addition.search = some pat)
    (hd : contextualizeValue preset addition.direction = .above)
    (hc : wrap (contextualizeValue preset addition.content) = cs)
    (hi : contextualizeValue preset addition.indent = ai)
    (hk : contextualizeValue preset addition.amountOfLinesToSkip = 0)
    (hne : cs ≠ []) :
    performLineAddition preset content addition =
      joinLines (((splitLines content).reverse.flatMap fun l =>
        if pat l then l :: cs.reverse.map (insertedLine ai (detectIndent l))
        else [l]).reverse) := by
  simp only [performLineAddition]
  rw [hs, hd, hc, hi, hk]
  have hlen : ¬ cs.length = 0 := by
    simpa using hne
  simp only [reduceCtorEq, if_neg, if_false, hlen, ite_false, if_true]
  rw [foldl_finalLines_skip_zero pat cs.reverse ai (splitLines content).reverse
    { finalLines := []
      amountOfLinesBeforeAdding := 0
      previousLine := ""
      hasMatch := false } rfl rfl]
  simp

/-! ## Claim C1 -/

/-- **C1, counterexample.**  The claim states that with a resolved search,
a non-empty resolved content list and skip count `0`, `performLineAddition`
performs exactly one insertion per file and is permanently disarmed after
it.  At content `"b\nb"` with both lines matching `/b/` and inserted block
`["X"]`, the engine inserts after **both** matching lines: the output is
`"b\nX\nb\nX"`, which has 4 lines, not the 3 lines that exactly one
insertion of the one-line block would produce. -/
theorem performLineAddition_not_single_insertion :
    performLineAddition () "b\nb"
      (mkAddition (some (matchesChar 'b')) .below (.many ["X"]) .unset 0) =
      "b\nX\nb\nX" ∧
    (splitLines (performLineAddition () "b\nb"
      (mkAddition (some (matchesChar 'b')) .below (.many ["X"]) .unset 0))).length ≠
      (splitLines "b\nb").length + 1 := by
  constructor
  · decide
  · decide

/-- **C1, amended.**  The engine does not disarm after the first insertion:
with a resolved search `pat`, resolved direction `below`, a non-empty
resolved content list `cs` and resolved skip count `0`,
`performLineAddition` appends the insertion block after **every** line
matching `pat` — the `hasMatch` flag is reset after each insertion
(EditHandler.ts line 111), so the scan re-arms and the number of insertions
equals the number of matching lines, not one. -/
theorem performLineAddition_skip_zero_below_flatMap {π : Type} (preset : π)
    (addition : LineAddition π) (pat : String → Bool) (cs : List String)
    (ai : AdditionIndent) (content : String)
    (hs : contextualizeValue preset addition.search = some pat)
    (hd : contextualizeValue preset addition.direction = .below)
    (hc : wrap (contextualizeValue preset addition.content) = cs)
    (hi : contextualizeValue preset addition.indent = ai)
    (hk : contextualizeValue preset addition.amountOfLinesToSkip = 0)
    (hne : cs ≠ []) :
    performLineAddition preset content addition =
      joinLines ((splitLines content).flatMap fun l =>
        if pat l then l :: cs.map (insertedLine ai (detectIndent l)) else [l]) :=
  perform_skip_zero_below_eq preset addition pat cs ai content hs hd hc hi hk hne

/-- Witness for `performLineAddition_skip_zero_below_flatMap` at a concrete
input. -/
theorem performLineAddition_skip_zero_below_flatMap_witness :
    performLineAddition () "b\nc"
      (mkAddition (some (matchesChar 'b')) .below (.many ["X"]) .unset 0) =
      "b\nX\nc" := by
  have h := performLineAddition_skip_zero_below_flatMap ()
    (mkAddition (some (matchesChar 'b')) .below (.many ["X"]) .unset 0)
    (matchesChar 'b') ["X"] .unset "b\nc" rfl rfl rfl rfl rfl (by decide)
  exact h.trans (by decide)

/-! ## Claim C2 -/

/-- **C2, counterexample.**  The claim states that the skip budget is
decremented only on matching lines and that for content `"a\nb\nb\nb"`,
search `/b/`, skip `1`, direction `below` and inserted content `["X"]` the
result is exactly `"a\nb\nb\nX\nb"`.  The engine actually returns
`"a\nb\nb\nX\nb\nX"`: after the insertion at the second matching line the
scan re-arms, and the third matching line receives a second insertion. -/
theorem performLineAddition_skip_example_ne_spec :
    performLineAddition () "a\nb\nb\nb"
      (mkAddition (some (matchesChar 'b')) .below (.many ["X"]) .unset 1) ≠
      "a\nb\nb\nX\nb" := by
  decide

/-- **C2, amended.**  Once a first matching line has armed the scan, the
skip budget is decremented on every subsequent scanned line — matching or
not — and each time the budget is exhausted an insertion fires and the scan
re-arms.  For the claim's own input the result is `"a\nb\nb\nX\nb\nX"`
(insertion after the second matching line, and another after the third);
and decrementing on non-matching lines is visible on `"b\na\nc"` with skip
`1`, where the block lands after the non-matching line `"a"`. -/
theorem performLineAddition_skip_decrements_while_armed :
    performLineAddition () "a\nb\nb\nb"
      (mkAddition (some (matchesChar 'b')) .below (.many ["X"]) .unset 1) =
      "a\nb\nb\nX\nb\nX" ∧
    performLineAddition () "b\na\nc"
      (mkAddition (some (matchesChar 'b')) .below (.many ["X"]) .unset 1) =
      "b\na\nX\nc" := by
  constructor
  · decide
  · decide

/-! ## Claim C3 -/

/-- **C3, confirmed.**  Direction symmetry of `performLineAddition`: on
content `"1\n2\n3"` with an anchor pattern matching exactly the line
`"2"`, inserted content `["X"]` and skip `0`, direction `below` yields
`"1\n2\nX\n3"` and direction `above` yields `"1\nX\n2\n3"`; and in
general, with direction `above` an inserted block `cs` appears immediately
before the anchor line in the originally specified order — the double
reversal of the content list and of the line buffer restores it. -/
theorem performLineAddition_direction_symmetry {π : Type} (preset : π)
    (addition : LineAddition π) (pat : String → Bool) (cs : List String)
    (hs : contextualizeValue preset addition.search = some pat)
    (hd : contextualizeValue preset addition.direction = .above)
    (hc : wrap (contextualizeValue preset addition.content) = cs)
    (hi : contextualizeValue preset addition.indent = .unset)
    (hk : contextualizeValue preset addition.amountOfLinesToSkip = 0)
    (h1 : pat "1" = false) (h2 : pat "2" = true) (h3 : pat "3" = false)
    (hne : cs ≠ []) :
    performLineAddition preset "1\n2\n3" addition =
      joinLines (["1"] ++ cs ++ ["2", "3"]) ∧
    performLineAddition () "1\n2\n3"
      (mkAddition (some pat) .below (.many ["X"]) .unset 0) = "1\n2\nX\n3" ∧
    performLineAddition () "1\n2\n3"
      (mkAddition (some pat) .above (.many ["X"]) .unset 0) = "1\nX\n2\n3" := by
  have hid : ∀ x : String, insertedLine .unset (detectIndent "2") x = x := by
    intro x
    rw [show detectIndent "2" = "" from by decide]
    show (if AdditionIndent.isFalsy .unset then "" ++ x else _) = x
    cases x
    rfl
  refine ⟨?_, ?_, ?_⟩
  · rw [perform_skip_zero_above_eq preset addition pat cs .unset "1\n2\n3"
        hs hd hc hi hk hne]
    rw [show splitLines "1\n2\n3" = ["1", "2", "3"] from by decide]
    rw [show (["1", "2", "3"] : List String).reverse = ["3", "2", "1"] from by decide]
    simp only [List.flatMap_cons, List.flatMap_nil, h1, h2, h3, if_true, if_false,
      Bool.false_eq_true, ite_false, ite_true]
    have hfun : insertedLine AdditionIndent.unset (detectIndent "2") = fun x => x :=
      funext hid
    rw [hfun, List.map_id']
    congr 1
    simp [List.reverse_append, List.reverse_reverse]
  · rw [perform_skip_zero_below_eq ()
        (mkAddition (some pat) .below (.many ["X"]) .unset 0) pat ["X"] .unset
        "1\n2\n3" rfl rfl rfl rfl rfl (by decide)]
    rw [show splitLines "1\n2\n3" = ["1", "2", "3"] from by decide]
    simp only [List.flatMap_cons, List.flatMap_nil, h1, h2, h3, if_true, if_false,
      Bool.false_eq_true, ite_false, ite_true, List.map_cons, List.map_nil, hid]
    decide
  · rw [perform_skip_zero_above_eq ()
        (mkAddition (some pat) .above (.many ["X"]) .unset 0) pat ["X"] .unset
        "1\n2\n3" rfl rfl rfl rfl rfl (by decide)]
    rw [show splitLines "1\n2\n3" = ["1", "2", "3"] from by decide]
    rw [show (["1", "2", "3"] : List String).reverse = ["3", "2", "1"] from by decide]
    simp only [List.flatMap_cons, List.flatMap_nil, h1, h2, h3, if_true, if_false,
      Bool.false_eq_true, ite_false, ite_true, List.reverse_cons, List.reverse_nil,
      List.map_cons, List.map_nil, hid]
    decide

/-- Witness for `performLineAddition_direction_symmetry` at the matcher
`/2/` and a two-line inserted block. -/
theorem performLineAddition_direction_symmetry_witness :
    performLineAddition () "1\n2\n3"
      (mkAddition (some (matchesChar '2')) .above (.many ["Y", "Z"]) .unset 0) =
      "1\nY\nZ\n2\n3" ∧
    performLineAddition () "1\n2\n3"
      (mkAddition (some (matchesChar '2')) .below (.many ["X"]) .unset 0) =
      "1\n2\nX\n3" ∧
    performLineAddition () "1\n2\n3"
      (mkAddition (some (matchesChar '2')) .above (.many ["X"]) .unset 0) =
      "1\nX\n2\n3" := by
  have h := performLineAddition_direction_symmetry ()
    (mkAddition (some (matchesChar '2')) .above (.many ["Y", "Z"]) .unset 0)
    (matchesChar '2') ["Y", "Z"] rfl rfl rfl rfl rfl
    (by decide) (by decide) (by decide) (by decide)
  exact ⟨h.1.trans (by decide), h.2.1, h.2.2⟩

/-! ## Claim C4 -/

/-- **C4, confirmed.**  `performLineAddition` returns its content argument
unchanged whenever the resolved search value is falsy (`none`), or the
resolved content list is empty, or no line of the input matches the search
pattern; in all three cases the output string equals the input string. -/
theorem performLineAddition_no_op {π : Type} (preset : π) (content : String)
    (addition : LineAddition π)
    (h : contextualizeValue preset addition.search = none ∨
         wrap (contextualizeValue preset addition.content) = [] ∨
         ∃ pat, contextualizeValue preset addition.search = some pat ∧
           ∀ l ∈ splitLines content, pat l = false) :
    performLineAddition preset content addition = content := by
  rcases h with h | h | ⟨pat, hp, hnm⟩
  · simp only [performLineAddition]
    rw [h]
  · simp only [performLineAddition]
    rw [h]
    cases hq : contextualizeValue preset addition.search with
    | none => rfl
    | some pat => simp
  · simp only [performLineAddition]
    rw [hp]
    by_cases hcs : (wrap (contextualizeValue preset addition.content)).length = 0
    · simp [hcs]
    · simp only [hcs, ite_false, if_false]
      cases hdv : contextualizeValue preset addition.direction with
      | above =>
        simp only [reduceIte]
        rw [foldl_finalLines_no_match pat _ _ (splitLines content).reverse
          { finalLines := []
            amountOfLinesBeforeAdding :=
              contextualizeValue preset addition.amountOfLinesToSkip
            previousLine := ""
            hasMatch := false } rfl
          (fun l hl => hnm l (List.mem_reverse.mp hl))]
        simp [joinLines_splitLines]
      | below =>
        simp only [if_neg (show ¬ (Direction.below = Direction.above) from by decide)]
        rw [foldl_finalLines_no_match pat _ _ (splitLines content)
          { finalLines := []
            amountOfLinesBeforeAdding :=
              contextualizeValue preset addition.amountOfLinesToSkip
            previousLine := ""
            hasMatch := false } rfl hnm]
        simp [joinLines_splitLines]

/-- Witness for `performLineAddition_no_op`: a search pattern matching no
line of the content. -/
theorem performLineAddition_no_op_witness :
    performLineAddition () "a\nb"
      (mkAddition (some (matchesChar 'z')) .below (.many ["X"]) .unset 0) =
      "a\nb" :=
  performLineAddition_no_op () "a\nb"
    (mkAddition (some (matchesChar 'z')) .below (.many ["X"]) .unset 0)
    (Or.inr (Or.inr ⟨matchesChar 'z', rfl, by decide⟩))

/-! ## Claim C5 -/

theorem takeWhile_append_cons (p : Char → Bool) :
    ∀ (xs : List Char) (y : Char) (ys : List Char), (∀ x ∈ xs, p x = true) →
      p y = false → (xs ++ y :: ys).takeWhile p = xs := by
  intro xs
  induction xs with
  | nil => intro y ys h hy; simp [List.takeWhile_cons, hy]
  | cons x xs ih =>
    intro y ys h hy
    have hx : p x = true := h x (List.mem_cons_self x xs)
    simp [List.takeWhile_cons, hx,
      ih y ys (fun z hz => h z (List.mem_cons_of_mem x hz)) hy]

theorem detectIndent_append_foo (u : String)
    (hu : ∀ c ∈ u.data, isIndentChar c = true) :
    detectIndent (u ++ "foo") = u := by
  apply String.ext
  show ((u ++ "foo").data.takeWhile isIndentChar) = u.data
  rw [String.data_append, show ("foo" : String).data = ['f', 'o', 'o'] from rfl,
      takeWhile_append_cons isIndentChar u.data 'f' ['o', 'o'] hu (by decide)]

theorem splitLines_unit_foo (u : String)
    (hu : ∀ c ∈ u.data, isIndentChar c = true) :
    splitLines (u ++ "foo") = [u ++ "foo"] := by
  rw [splitLines, splitNl_no_newline]
  · rfl
  · intro hmem
    rw [String.data_append] at hmem
    rcases List.mem_append.mp hmem with h | h
    · exact absurd (hu _ h) (by decide)
    · exact absurd h (by decide)

/-- **C5, confirmed.**  For an anchor line `u ++ "foo"` whose
leading-whitespace unit `u` is a two-character string, and inserted content
`["bar"]`, each inserted line is prefixed according to the resolved indent
mode, the modes being tested in the source's order: a falsy indent (unset,
`0`, or `""`) reuses the anchor's leading-whitespace unit; `'double'`
repeats that unit twice; a (truthy) number `n` yields exactly `n` space
characters regardless of the anchor's indentation; any other (truthy)
string is used verbatim as the prefix. -/
theorem performLineAddition_indent_modes (u : String) (ai : AdditionIndent)
    (n : Nat) (s : String)
    (hu : ∀ c ∈ u.data, isIndentChar c = true) (hlen : u.data.length = 2)
    (hfalsy : ai.isFalsy = true) (hn : n ≠ 0) (hs1 : s ≠ "") (hs2 : s ≠ "double") :
    performLineAddition () (u ++ "foo")
      (mkAddition (some (matchesChar 'f')) .below (.many ["bar"]) ai 0) =
      (u ++ "foo") ++ "\n" ++ (u ++ "bar") ∧
    performLineAddition () (u ++ "foo")
      (mkAddition (some (matchesChar 'f')) .below (.many ["bar"]) (.str "double") 0) =
      (u ++ "foo") ++ "\n" ++ ((u ++ u) ++ "bar") ∧
    performLineAddition () (u ++ "foo")
      (mkAddition (some (matchesChar 'f')) .below (.many ["bar"]) (.num n) 0) =
      (u ++ "foo") ++ "\n" ++ (String.mk (List.replicate n ' ') ++ "bar") ∧
    performLineAddition () (u ++ "foo")
      (mkAddition (some (matchesChar 'f')) .below (.many ["bar"]) (.str s) 0) =
      (u ++ "foo") ++ "\n" ++ (s ++ "bar") := by
  have hpat : matchesChar 'f' (u ++ "foo") = true := by
    have hmem : 'f' ∈ (u ++ "foo").data := by
      rw [String.data_append]
      exact List.mem_append.mpr (Or.inr (by decide))
    exact List.elem_eq_true_of_mem hmem
  have main : ∀ ai' : AdditionIndent,
      performLineAddition () (u ++ "foo")
        (mkAddition (some (matchesChar 'f')) .below (.many ["bar"]) ai' 0) =
        (u ++ "foo") ++ "\n" ++ insertedLine ai' u "bar" := by
    intro ai'
    rw [perform_skip_zero_below_eq ()
      (mkAddition (some (matchesChar 'f')) .below (.many ["bar"]) ai' 0)
      (matchesChar 'f') ["bar"] ai' (u ++ "foo") rfl rfl rfl rfl rfl (by decide)]
    rw [splitLines_unit_foo u hu]
    simp only [List.flatMap_cons, List.flatMap_nil, hpat, if_true, ite_true,
      List.map_cons, List.map_nil, List.append_nil, detectIndent_append_foo u hu]
    rfl
  refine ⟨?_, ?_, ?_, ?_⟩
  · rw [main ai]
    have : insertedLine ai u "bar" = u ++ "bar" := by
      simp [insertedLine, hfalsy]
    rw [this]
  · rw [main (.str "double")]
    have : insertedLine (.str "double") u "bar" = (u ++ u) ++ "bar" := by
      simp [insertedLine, show AdditionIndent.isFalsy (.str "double") = false from by decide]
    rw [this]
  · rw [main (.num n)]
    have : insertedLine (.num n) u "bar" =
        String.mk (List.replicate n ' ') ++ "bar" := by
      have hf : AdditionIndent.isFalsy (.num n) = false := by
        simp [AdditionIndent.isFalsy, hn]
      simp [insertedLine, hf]
    rw [this]
  · rw [main (.str s)]
    have : insertedLine (.str s) u "bar" = s ++ "bar" := by
      have hf : AdditionIndent.isFalsy (.str s) = false := by
        simp [AdditionIndent.isFalsy, hs1]
      have hd : ¬ (AdditionIndent.str s = AdditionIndent.str "double") := by
        simp [hs2]
      simp [insertedLine, hf, hd]
    rw [this]

/-- Witness for `performLineAddition_indent_modes` at the two-space unit,
`n = 4` and the custom prefix string `"\t"`. -/
theorem performLineAddition_indent_modes_witness :
    performLineAddition () "  foo"
      (mkAddition (some (matchesChar 'f')) .below (.many ["bar"]) .unset 0) =
      "  foo\n  bar" ∧
    performLineAddition () "  foo"
      (mkAddition (some (matchesChar 'f')) .below (.many ["bar"]) (.str "double") 0) =
      "  foo\n    bar" ∧
    performLineAddition () "  foo"
      (mkAddition (some (matchesChar 'f')) .below (.many ["bar"]) (.num 4) 0) =
      "  foo\n    bar" ∧
    performLineAddition () "  foo"
      (mkAddition (some (matchesChar 'f')) .below (.many ["bar"]) (.str "\t") 0) =
      "  foo\n\tbar" := by
  have h := performLineAddition_indent_modes "  " .unset 4 "\t"
    (by decide) (by decide) (by decide) (by decide) (by decide) (by decide)
  refine ⟨?_, ?_, ?_, ?_⟩
  · have := h.1
    rw [show ("  " : String) ++ "foo" = "  foo" from by decide] at this
    exact this.trans (by decide)
  · have := h.2.1
    rw [show ("  " : String) ++ "foo" = "  foo" from by decide] at this
    exact this.trans (by decide)
  · have := h.2.2.1
    rw [show ("  " : String) ++ "foo" = "  foo" from by decide] at this
    exact this.trans (by decide)
  · have := h.2.2.2
    rw [show ("  " : String) ++ "foo" = "  foo" from by decide] at this
    exact this.trans (by decide)

/-! ## Claim C6 -/

theorem crlfAux_eq_false : ∀ cs : List Char, '\r' ∉ cs → crlfAux cs = false := by
  intro cs
  induction cs with
  | nil => intro h; rfl
  | cons c cs ih =>
    intro h
    have hc : ¬ (c == '\r') = true := by
      intro he
      exact h ((LawfulBEq.eq_of_beq he) ▸ List.mem_cons_self c cs)
    have hcs : '\r' ∉ cs := fun hm => h (List.mem_cons_of_mem c hm)
    cases cs with
    | nil => rfl
    | cons d ds =>
      rw [show crlfAux (c :: d :: ds) = ((c == '\r' && d == '\n') || crlfAux (d :: ds))
            from rfl]
      rw [ih hcs]
      simp [Bool.eq_false_iff.mpr hc]

theorem joinLines_no_cr (ls : List String) (h : ∀ l ∈ ls, '\r' ∉ l.data) :
    '\r' ∉ (joinLines ls).data := by
  intro hm
  rw [joinLines_data] at hm
  rcases eq_nl_or_mem_of_mem_joinChars (ls.map String.data) '\r' hm with h0 | ⟨ld, hld, hmem⟩
  · exact absurd h0 (by decide)
  · rcases List.mem_map.mp hld with ⟨l, hl, rfl⟩
    exact h l hl hmem

theorem splitLines_no_cr (content : String) (hc : '\r' ∉ content.data) :
    ∀ l ∈ splitLines content, '\r' ∉ l.data := by
  intro l hl hm
  rcases List.mem_map.mp hl with ⟨cs0, hcs0, rfl⟩
  exact hc (mem_of_mem_splitNl content.data cs0 hcs0 '\r' hm)

theorem insertedLine_no_cr (ai : AdditionIndent) (line x : String)
    (hx : '\r' ∉ x.data) (hai : ∀ s, ai = .str s → '\r' ∉ s.data) :
    '\r' ∉ (insertedLine ai (detectIndent line) x).data := by
  have hind : '\r' ∉ (detectIndent line).data := by
    intro hm
    have hm2 : '\r' ∈ line.data.takeWhile isIndentChar := hm
    exact absurd (List.mem_takeWhile_imp hm2) (by decide)
  have hauto : '\r' ∉ ((detectIndent line) ++ x).data := by
    rw [String.data_append]
    intro hm
    rcases List.mem_append.mp hm with h | h
    · exact hind h
    · exact hx h
  intro hm
  cases ai with
  | unset =>
    rw [show insertedLine AdditionIndent.unset (detectIndent line) x =
          (detectIndent line) ++ x from rfl] at hm
    exact hauto hm
  | num n =>
    by_cases h0 : n = 0
    · subst h0
      rw [show insertedLine (AdditionIndent.num 0) (detectIndent line) x =
            (detectIndent line) ++ x from rfl] at hm
      exact hauto hm
    · have hf : AdditionIndent.isFalsy (.num n) = false := by
        simp [AdditionIndent.isFalsy, h0]
      rw [insertedLine, hf] at hm
      simp only [Bool.false_eq_true, if_false, ite_false, reduceCtorEq] at hm
      rw [String.data_append] at hm
      rcases List.mem_append.mp hm with h | h
      · rcases List.mem_replicate.mp h with ⟨-, h⟩
        exact absurd h (by decide)
      · exact hx h
  | str s =>
    by_cases he : s = ""
    · subst he
      rw [show insertedLine (AdditionIndent.str "") (detectIndent line) x =
            (detectIndent line) ++ x from rfl] at hm
      exact hauto hm
    · have hf : AdditionIndent.isFalsy (.str s) = false := by
        simp [AdditionIndent.isFalsy, he]
      by_cases hd : s = "double"
      · subst hd
        rw [show insertedLine (AdditionIndent.str "double") (detectIndent line) x =
              ((detectIndent line) ++ (detectIndent line)) ++ x from rfl] at hm
        rw [String.data_append] at hm
        rcases List.mem_append.mp hm with h | h
        · rw [String.data_append] at h
          rcases List.mem_append.mp h with h | h <;> exact hind h
        · exact hx h
      · have hds : ¬ (AdditionIndent.str s = AdditionIndent.str "double") := by
          simp [hd]
        rw [insertedLine, hf] at hm
        simp only [Bool.false_eq_true, if_false, ite_false] at hm
        rw [if_neg hds] at hm
        rw [String.data_append] at hm
        rcases List.mem_append.mp hm with h | h
        · exact hai s rfl h
        · exact hx h

/-- **C6, counterexample.**  The claim states that the output of
`performLineAddition` never contains a `"\r\n"` sequence, regardless of the
line-ending style of the input.  The engine splits on `'\n'` only and never
strips `'\r'`: on CRLF input `"a\r\nb"` with search `/a/` and inserted
content `["X"]`, the output is `"a\r\nX\nb"`, which contains `"\r\n"`. -/
theorem performLineAddition_preserves_crlf :
    performLineAddition () "a\r\nb"
      (mkAddition (some (matchesChar 'a')) .below (.many ["X"]) .unset 0) =
      "a\r\nX\nb" ∧
    hasCRLF (performLineAddition () "a\r\nb"
      (mkAddition (some (matchesChar 'a')) .below (.many ["X"]) .unset 0)) = true := by
  constructor
  · decide
  · decide

/-- **C6, amended.**  The output's lines are joined with the single
character `'\n'`, but carriage returns already present in the input (or in
the inserted content, or in a custom string indent) are preserved, so CRLF
input yields CRLF output.  The claim holds exactly for carriage-return-free
inputs: when the content, every resolved inserted line, and any custom
string indent contain no `'\r'`, the output contains no `'\r'` at all and
hence no `"\r\n"` sequence. -/
theorem performLineAddition_no_crlf_of_clean_input {π : Type} (preset : π)
    (content : String) (addition : LineAddition π)
    (hc : '\r' ∉ content.data)
    (hcs : ∀ x ∈ wrap (contextualizeValue preset addition.content), '\r' ∉ x.data)
    (hai : ∀ s, contextualizeValue preset addition.indent = .str s → '\r' ∉ s.data) :
    hasCR (performLineAddition preset content addition) = false ∧
    hasCRLF (performLineAddition preset content addition) = false := by
  have key : '\r' ∉ (performLineAddition preset content addition).data := by
    simp only [performLineAddition]
    cases hq : contextualizeValue preset addition.search with
    | none => exact hc
    | some pat =>
      by_cases hlen : (wrap (contextualizeValue preset addition.content)).length = 0
      · simp only [hlen, ite_true, if_true]
        exact hc
      · simp only [hlen, ite_false, if_false]
        cases hdv : contextualizeValue preset addition.direction with
        | above =>
          simp only [reduceIte]
          apply joinLines_no_cr
          intro l hl
          rw [List.mem_reverse] at hl
          refine foldl_finalLines_mem pat _ _ (fun l0 => '\r' ∉ l0.data) ?_ _ _ ?_ ?_ l hl
          · intro line x hx
            exact insertedLine_no_cr _ line x (hcs x (List.mem_reverse.mp hx))
              (fun s hs => hai s hs)
          · intro l0 hl0
            exact absurd hl0 (List.not_mem_nil l0)
          · intro l0 hl0
            exact splitLines_no_cr content hc l0 (List.mem_reverse.mp hl0)
        | below =>
          simp only [if_neg (show ¬ (Direction.below = Direction.above) from by decide)]
          apply joinLines_no_cr
          intro l hl
          refine foldl_finalLines_mem pat _ _ (fun l0 => '\r' ∉ l0.data) ?_ _ _ ?_ ?_ l hl
          · intro line x hx
            exact insertedLine_no_cr _ line x (hcs x hx) (fun s hs => hai s hs)
          · intro l0 hl0
            exact absurd hl0 (List.not_mem_nil l0)
          · intro l0 hl0
            exact splitLines_no_cr content hc l0 hl0
  constructor
  · simpa [hasCR] using key
  · rw [hasCRLF]
    exact crlfAux_eq_false _ key

/-- Witness for `performLineAddition_no_crlf_of_clean_input` on a
carriage-return-free input. -/
theorem performLineAddition_no_crlf_of_clean_input_witness :
    hasCR (performLineAddition () "a\nb"
      (mkAddition (some (matchesChar 'a')) .below (.many ["X"]) .unset 0)) = false ∧
    hasCRLF (performLineAddition () "a\nb"
      (mkAddition (some (matchesChar 'a')) .below (.many ["X"]) .unset 0)) = false :=
  performLineAddition_no_crlf_of_clean_input () "a\nb"
    (mkAddition (some (matchesChar 'a')) .below (.many ["X"]) .unset 0)
    (by decide) (by decide)
    (fun s hs => absurd hs (by simp [mkAddition, contextualizeValue]))

/-! ## Claim C7 -/

/-- **C7, counterexample.**  The claim states that the isolated evaluation
context is pre-populated with exactly four named capabilities (exports,
require, Preset, color) and no other names.  The source installs **five**
globals: `module` is also bound (`src/unnamed/part_001`, line 81). -/
theorem sandboxContext_not_four_names :
    (createContext (0 : Nat)).names ≠ ["exports", "require", "Preset", "color"] ∧
    (createContext (0 : Nat)).names =
      ["exports", "require", "module", "Preset", "color"] ∧
    "module" ∈ (createContext (0 : Nat)).names := by
  refine ⟨by decide, rfl, by decide⟩

/-- **C7, amended.**  The isolated evaluation context is pre-populated with
exactly **five** named capabilities — the empty exports container, the
require capability, the Node `module` object, the freshly constructed
`Preset` builder instance, and the color text-styling helper — and no other
names; and after a successful run the `Preset` returned by the importer is
the builder read back from the context, carrying whatever the script
assigned onto it. -/
theorem sandboxContext_names_and_preset_extraction :
    (∀ (β : Type) (p0 : β), (createContext p0).names =
      ["exports", "require", "module", "Preset", "color"]) ∧
    ∀ (β : Type) (mutate : β → β) (p0 : β) (script code : String),
      evaluateConfiguration (fun _ => (Except.ok code : Except Unit String))
        (fun _ ctx => Except.ok { ctx with presetValue := mutate ctx.presetValue })
        p0 script = Except.ok (mutate p0) := by
  constructor
  · intro β p0
    rfl
  · intro β mutate p0 script code
    rfl

/-! ## Claim C8 -/

/-- **C8, code bug.**  The claim (and the spec) state that a
manifest-declared preset path that does not exist fails with the
ExplicitFileMissing execution-error condition.  In the source,
`fs.statSync(presetPath)` (line 37) throws a raw `ENOENT` filesystem error
before the `ExecutionError` of lines 41-44 can be built — that error (whose
message says "does not exist") is only reachable when the path **exists**
but is not a regular file.  At `bugFs` (declared path `demo/my-preset.js`
missing, conventional `demo/preset.ts` present) the outcome is the raw stat
error, not the crafted execution error — and there is indeed no fallback.
At `okFs` (declared path exists) the override correctly wins over the
conventional file. -/
theorem findConfiguration_missing_declared_file_raw_error :
    findConfiguration bugFs "demo" =
      .error (.statError "demo/my-preset.js") ∧
    isSpecifiedFileMissing (findConfiguration bugFs "demo") = false ∧
    findConfiguration okFs "demo" = .ok "demo/my-preset.js" := by
  refine ⟨rfl, rfl, rfl⟩

/-! ## Claim C9 -/

/-- **C9, confirmed.**  Every failure raised while transforming the preset
script to executable form or while running it in the sandbox surfaces as a
single Evaluation execution error that halts the run (`stopsExecution`) and
wraps the original failure with its complete diagnostic trace
(`completeStack = some e`); no underlying error escapes unwrapped from
`evaluateConfiguration`. -/
theorem evaluateConfiguration_wraps_all_failures :
    ∀ (ε β : Type) (transform : String → Except ε String)
      (runInContext : String → VmContext β → Except ε (VmContext β))
      (newPreset : β) (script : String),
      (∃ p, evaluateConfiguration transform runInContext newPreset script =
        Except.ok p) ∨
      (∃ e, evaluateConfiguration transform runInContext newPreset script =
          Except.error (evaluationError e) ∧
        (evaluationError e).message = "The preset could not be evaluated." ∧
        (evaluationError e).completeStack = some e ∧
        (evaluationError e).stopsExecution = true ∧
        (transform script = .error e ∨
          ∃ code, transform script = .ok code ∧
            runInContext code (createContext newPreset) = .error e)) := by
  intro ε β transform runInContext newPreset script
  cases ht : transform script with
  | error e =>
    right
    refine ⟨e, ?_, rfl, rfl, rfl, Or.inl rfl⟩
    simp [evaluateConfiguration, ht]
  | ok code =>
    cases hr : runInContext code (createContext newPreset) with
    | error e =>
      right
      refine ⟨e, ?_, rfl, rfl, rfl, Or.inr ⟨code, rfl, hr⟩⟩
      simp [evaluateConfiguration, ht, hr]
    | ok ctx =>
      left
      exact ⟨ctx.presetValue, by simp [evaluateConfiguration, ht, hr]⟩

/-! ## Claim C10 -/

/-- **C10, confirmed.**  `Logger.exit` logs its message at the `'error'`
action level and then terminates the process with exit status code `0`:
the first effect is the error-level log, the last effect is the process
exit, and the only exit status in the trace is `0` — the process exits
"successfully" even after displaying an error message. -/
theorem logger_exit_error_level_zero_status :
    ∀ message : String,
      (Logger.exit message).head? = some (.log "error" message) ∧
      (Logger.exit message).getLast? = some (.processExit 0) ∧
      exitCodes (Logger.exit message) = [0] := by
  intro message
  refine ⟨rfl, ?_, rfl⟩
  rfl

end PresetCli
